import Mathlib

/-!
Verification development for the smart-git-proxy repository.

The definitions below are a shallow embedding of the Go sources:
  * `SGP.Config.*`  embeds `internal/config/size.go`
  * `SGP.Mirror.*`  embeds `internal/mirror/cache.go`
Strings are modelled as `List Char`; `int64` as `ℤ` (the claims stay far
from the 2^63 overflow boundary); `float64` values are modelled as exact
rationals `ℚ`, with truncation toward zero for `int64(...)` conversions
(`float64` rounding error, about 2^-53 relative, is not modelled).
`time.Time` is modelled as `ℤ` nanoseconds; `t1.Before(t2)` is `t1 < t2`.

To keep every definition kernel-computable, rational values are built
with `Rat.divInt` and consumed with `Int.tdiv`; the lemmas `truncRat_eq`,
`ratMulInt_eq` etc. relate them to the ordinary field operations on `ℚ`.
-/

deriving instance DecidableEq for Except

namespace SGP

abbrev Chars := List Char

/-- ASCII decimal digit: the regexp character class `[0-9]`
(code points 48–57). -/
def isDigitChar (c : Char) : Bool := 48 ≤ c.toNat && c.toNat ≤ 57

/-- ASCII letter: the regexp character class `[A-Za-z]`
(code points 65–90 and 97–122). -/
def isAlphaChar (c : Char) : Bool :=
  (65 ≤ c.toNat && c.toNat ≤ 90) || (97 ≤ c.toNat && c.toNat ≤ 122)

/-- Whitespace matched by Go regexp `\s`, i.e. the class `[\t\n\f\r ]`. -/
def isRegexSpace (c : Char) : Bool :=
  c.toNat = 9 || c.toNat = 10 || c.toNat = 12 || c.toNat = 13 || c.toNat = 32

/-- Whitespace stripped by `strings.TrimSpace` (the ASCII part of
`unicode.IsSpace`; exotic unicode spaces are not modelled). -/
def isTrimSpace (c : Char) : Bool :=
  c.toNat = 9 || c.toNat = 10 || c.toNat = 11 || c.toNat = 12 ||
    c.toNat = 13 || c.toNat = 32

/-- `strings.TrimSpace`: drop whitespace from both ends. -/
def trimSpace (s : Chars) : Chars :=
  ((s.dropWhile isTrimSpace).reverse.dropWhile isTrimSpace).reverse

/-- Value of a digit string read left to right (base 10). -/
def digitsVal (ds : Chars) : ℕ :=
  ds.foldl (fun a c => 10 * a + (c.toNat - 48)) 0

/-- `strings.ToUpper`, ASCII letters only (units are ASCII). -/
def toUpperChars (s : Chars) : Chars :=
  s.map (fun c => if 97 ≤ c.toNat && c.toNat ≤ 122 then Char.ofNat (c.toNat - 32) else c)

/-- `int64(x)` conversion of a `float64`: truncation toward zero. -/
def truncRat (q : ℚ) : ℤ := Int.tdiv q.num q.den

/-- Exact product of a rational and an integer (`float64` multiplication
without rounding), in kernel-computable form. -/
def ratMulInt (q : ℚ) (m : ℤ) : ℚ := Rat.divInt (q.num * m) q.den

/-- Exact negation of a rational in kernel-computable form. -/
def ratNeg (q : ℚ) : ℚ := Rat.divInt (-q.num) q.den

namespace Config

/-- The distinct failure messages produced by `size.go`'s `fmt.Errorf`
sites, as distinguishable kinds. -/
inductive SizeErr where
  | empty          -- "empty size string"
  | invalidFormat  -- "invalid size format: %s"
  | invalidNumber  -- "invalid number: %s"
  | unknownUnit    -- "unknown unit: %s"
  | invalidPercent -- "invalid percentage: %s"
  | outOfRange     -- "percentage must be between 0 and 100: %s"
deriving DecidableEq, Repr

/-- Tail of the regexp match `\s*([A-Za-z]*)$`: after the number, skip
spaces, take the letters; the match succeeds only at end of input. -/
def finishUnit (num : Chars) (r : Chars) : Option (Chars × Chars) :=
  let r1 := r.dropWhile isRegexSpace
  let us := r1.takeWhile isAlphaChar
  if r1.dropWhile isAlphaChar = [] then some (num, us) else none

/-- The anchored regexp `^([0-9]+(?:\.[0-9]+)?)\s*([A-Za-z]*)$` of
`ParseSize`, returning (number capture, unit capture) on a match.
After the leading digit run, a fraction part is consumed exactly when
the next character is `'.'` (in which case at least one fraction digit
is required, since `'.'` can be consumed by nothing else). -/
def matchSize (s : Chars) : Option (Chars × Chars) :=
  let ds := s.takeWhile isDigitChar
  if ds = [] then none
  else
    match s.dropWhile isDigitChar with
    | [] => finishUnit ds []
    | c :: r2 =>
        if c = '.' then
          let fs := r2.takeWhile isDigitChar
          if fs = [] then none
          else finishUnit (ds ++ '.' :: fs) (r2.dropWhile isDigitChar)
        else finishUnit ds (c :: r2)

/-- Exact rational value of a regexp-matched decimal numeral `D` or
`D.F`, i.e. the value `strconv.ParseFloat` approximates: the fraction
(D·10^|F| + F) / 10^|F|. -/
def decimalVal (num : Chars) : ℚ :=
  let ip := num.takeWhile isDigitChar
  match num.dropWhile isDigitChar with
  | [] => (digitsVal ip : ℚ)
  | c :: fs =>
      if c = '.' then
        Rat.divInt (digitsVal ip * 10 ^ fs.length + digitsVal fs) (10 ^ fs.length)
      else (digitsVal ip : ℚ)

/-- The `switch unit` multiplier table of `ParseSize`, on the
upper-cased unit capture. -/
def unitMult (u : Chars) : Option ℤ :=
  if u = [] || u = ['B'] then some 1
  else if u = ['K', 'I', 'B'] then some 1024
  else if u = ['M', 'I', 'B'] then some (1024 * 1024)
  else if u = ['G', 'I', 'B'] then some (1024 * 1024 * 1024)
  else if u = ['T', 'I', 'B'] then some (1024 * 1024 * 1024 * 1024)
  else if u = ['K', 'B'] then some 1000
  else if u = ['M', 'B'] then some (1000 * 1000)
  else if u = ['G', 'B'] then some (1000 * 1000 * 1000)
  else if u = ['T', 'B'] then some (1000 * 1000 * 1000 * 1000)
  else if u = ['K'] then some 1024
  else if u = ['M'] then some (1024 * 1024)
  else if u = ['G'] then some (1024 * 1024 * 1024)
  else if u = ['T'] then some (1024 * 1024 * 1024 * 1024)
  else none

/-- `ParseSize` from `size.go`: trim, regexp-match number and unit, look
the unit up, multiply and truncate toward zero with `int64(...)`.
(`strconv.ParseFloat` cannot fail on a regexp-matched numeral except by
overflow to infinity, which is not modelled, so `.invalidNumber` is
unreachable here, as it is for in-range inputs in Go.) -/
def ParseSize (s0 : Chars) : Except SizeErr ℤ :=
  let s := trimSpace s0
  if s = [] then .error .empty
  else
    match matchSize s with
    | none => .error .invalidFormat
    | some (num, unit) =>
        match unitMult (toUpperChars unit) with
        | none => .error .unknownUnit
        | some m => .ok (truncRat (ratMulInt (decimalVal num) m))

/-- `SizeSpec` from `size.go`: absolute bytes, or percentage of
available disk. `Percent` is `float64` in Go, modelled as `ℚ`. -/
structure SizeSpec where
  Bytes : ℤ
  Percent : ℚ
deriving DecidableEq, Repr

/-- `SizeSpec.IsPercent`. -/
def SizeSpec.IsPercent (s : SizeSpec) : Bool := 0 < s.Percent

/-- `SizeSpec.IsZero`. -/
def SizeSpec.IsZero (s : SizeSpec) : Bool := s.Bytes = 0 && s.Percent = 0

/-- `strconv.ParseFloat` on an unsigned numeral, for the percentage
branch: digits with an optional fraction; either side of the dot may be
empty but not both.  (Exponent, `inf` and `nan` forms, and `float64`
rounding, are not modelled.) -/
def parsePosFloat (s : Chars) : Option ℚ :=
  let ds := s.takeWhile isDigitChar
  match s.dropWhile isDigitChar with
  | [] => if ds = [] then none else some (digitsVal ds : ℚ)
  | c :: fs =>
      if c = '.' then
        if fs.dropWhile isDigitChar = [] && !(ds = [] && fs = []) then
          some (Rat.divInt (digitsVal ds * 10 ^ fs.length + digitsVal fs) (10 ^ fs.length))
        else none
      else none

/-- `strconv.ParseFloat` with an optional sign. -/
def parseFloatChars (s : Chars) : Option ℚ :=
  match s with
  | '-' :: r => (parsePosFloat r).map ratNeg
  | '+' :: r => parsePosFloat r
  | _ => parsePosFloat s

/-- `ParseSizeSpec` from `size.go`: trim; a `%`-suffixed string is a
percentage with domain (0, 100]; anything else goes to `ParseSize`. -/
def ParseSizeSpec (s0 : Chars) : Except SizeErr SizeSpec :=
  let s := trimSpace s0
  if s = [] then .error .empty
  else if s.getLast? = some '%' then
    let numStr := trimSpace s.dropLast
    match parseFloatChars numStr with
    | none => .error .invalidPercent
    | some pct =>
        if pct ≤ 0 || 100 < pct then .error .outOfRange
        else .ok ⟨0, pct⟩
  else
    match ParseSize s with
    | .error e => .error e
    | .ok b => .ok ⟨b, 0⟩

/-- The shape of the number capture of `ParseSize`'s regexp:
`[0-9]+(\.[0-9]+)?`.  Used to quantify over numerals in theorems. -/
def isDecimalLit (s : Chars) : Bool :=
  match s.dropWhile isDigitChar with
  | [] => !decide (s.takeWhile isDigitChar = [])
  | c :: fs => decide (c = '.') && (!decide (s.takeWhile isDigitChar = []) &&
      (!decide (fs = []) && fs.all isDigitChar))

/-- The unit table exactly as claim C5 words it: SI units `KB/MB/GB/TB`
as powers of 1000, IEC units `KiB/MiB/GiB/TiB` and the bare shorthands
`K/M/G/T` as powers of 1024, none or `B` as 1, case-insensitively.
Stated independently of `unitMult` so that their agreement is a
checkable fact (`claimFactor_eq_unitMult`). -/
def claimFactor (u : Chars) : Option ℤ :=
  let v := toUpperChars u
  if v = ['K', 'B'] then some (1000 ^ 1)
  else if v = ['M', 'B'] then some (1000 ^ 2)
  else if v = ['G', 'B'] then some (1000 ^ 3)
  else if v = ['T', 'B'] then some (1000 ^ 4)
  else if v = ['K', 'I', 'B'] || v = ['K'] then some (1024 ^ 1)
  else if v = ['M', 'I', 'B'] || v = ['M'] then some (1024 ^ 2)
  else if v = ['G', 'I', 'B'] || v = ['G'] then some (1024 ^ 3)
  else if v = ['T', 'I', 'B'] || v = ['T'] then some (1024 ^ 4)
  else if v = [] || v = ['B'] then some 1
  else none

end Config

/-! ### Shared model of the `fmt` package rendering used by both
`config.FormatSize` and `mirror.formatSize`. -/

/-- The character `'0' + d` for a digit value `d < 10`. -/
def digitChar (d : ℕ) : Char := Char.ofNat (48 + d)

/-- Decimal digits of `n`, most significant first (accumulator form).
The first argument is a structural recursion bound so the kernel can
evaluate the definition; it is never exhausted when it is at least the
number of digits of `n`. -/
def natToDigitsAux : ℕ → ℕ → Chars → Chars
  | 0, _, acc => acc
  | fuel + 1, n, acc =>
      if n = 0 then acc
      else natToDigitsAux fuel (n / 10) (digitChar (n % 10) :: acc)

/-- `fmt`'s `%d` for a natural number.  The bound 20 covers every
`int64` (at most 19 decimal digits), the domain of the Go function. -/
def natToDigits (n : ℕ) : Chars := if n = 0 then ['0'] else natToDigitsAux 20 n []

/-- `fmt`'s `%d` for an `int64`. -/
def intToDigits (n : ℤ) : Chars :=
  if n < 0 then '-' :: natToDigits (-n).toNat else natToDigits n.toNat

/-- Nearest integer to `t / den`, ties to even: the rounding used by
`fmt` when printing an exactly-representable binary value. -/
def roundHalfEven (t den : ℕ) : ℕ :=
  let q := t / den
  let r := t % den
  if 2 * r < den then q
  else if den < 2 * r then q + 1
  else if q % 2 = 0 then q else q + 1

/-- `fmt`'s `%.1f` applied to the exact value `n / den` (`den` a power
of two, so `float64(n)/float64(den)` is this value exactly for
`n < 2^53`; the conversion error of larger `n` is not modelled). -/
def fix1 (n den : ℕ) : Chars :=
  let k := roundHalfEven (10 * n) den
  natToDigits (k / 10) ++ '.' :: digitChar (k % 10) :: []

/-- The byte `"KMGTPE"[exp]`; for `int64` inputs `exp ≤ 5`, so the
fallback is never reached. -/
def unitChar (exp : ℕ) : Char := (['K', 'M', 'G', 'T', 'P', 'E']).getD exp 'K'

namespace Config

/-- The `for n := bytes / unit; n >= unit; n /= unit` loop of
`config.FormatSize` (all values positive in this branch, so `int64`
division is `ℕ` division). Returns the final `(div, exp)`.  The first
argument is a structural recursion bound so the kernel can evaluate the
definition; the loop body runs at most 5 times for any `int64`, so the
bound 7 used below is never exhausted. -/
def fsLoop : ℕ → ℕ → ℕ → ℕ → ℕ × ℕ
  | 0, _, d, exp => (d, exp)
  | fuel + 1, n, d, exp =>
      if 1024 ≤ n then fsLoop fuel (n / 1024) (d * 1024) (exp + 1) else (d, exp)

/-- `config.FormatSize`: `"<n> B"` below 1024, else `"%.1f <u>iB"`. -/
def FormatSize (bytes : ℤ) : Chars :=
  if bytes < 1024 then intToDigits bytes ++ ' ' :: 'B' :: []
  else
    let p := fsLoop 7 (bytes.toNat / 1024) 1024 0
    fix1 bytes.toNat p.1 ++ ' ' :: unitChar p.2 :: 'i' :: 'B' :: []

end Config

namespace Mirror

/-- The size loop of `mirror.formatSize` (a verbatim copy of the one in
`config.FormatSize`, including the recursion bound). -/
def fsLoop : ℕ → ℕ → ℕ → ℕ → ℕ × ℕ
  | 0, _, d, exp => (d, exp)
  | fuel + 1, n, d, exp =>
      if 1024 ≤ n then fsLoop fuel (n / 1024) (d * 1024) (exp + 1) else (d, exp)

/-- `mirror.formatSize`: a verbatim copy of `config.FormatSize`. -/
def formatSize (bytes : ℤ) : Chars :=
  if bytes < 1024 then intToDigits bytes ++ ' ' :: 'B' :: []
  else
    let p := fsLoop 7 (bytes.toNat / 1024) 1024 0
    fix1 bytes.toNat p.1 ++ ' ' :: unitChar p.2 :: 'i' :: 'B' :: []

/-- `MinFreeSpace = 1024 * 1024 * 1024` (1 GiB). -/
def MinFreeSpace : ℤ := 1024 * 1024 * 1024

/-- `DefaultMaxSizePercent = 80.0`. -/
def DefaultMaxSizePercent : ℚ := 80

/-- `int64(float64(available) * pct / 100.0)`, with the `float64`
arithmetic carried out exactly: the truncation toward zero of
`available * pct / 100`. -/
def pctOf (available : ℤ) (pct : ℚ) : ℤ :=
  truncRat (Rat.divInt (available * pct.num) (pct.den * 100))

/-- The two `if` statements at the end of `getMaxSize`: enforce the
minimum free reserve, then floor at zero. -/
def clampReserve (available totalUsable : ℤ) : ℤ :=
  let t := if available - totalUsable < MinFreeSpace
           then available - MinFreeSpace else totalUsable
  if t < 0 then 0 else t

/-- `Cache.getMaxSize` from `cache.go`, as a function of the configured
spec and the available bytes reported by `Statfs` (the stat-failure
early return is not modelled; theorems take `available` as given).
Note the absolute-size branch returns `spec.Bytes` early, without
reaching the minimum-free-space clamp. -/
def getMaxSize (spec : Config.SizeSpec) (available : ℤ) : ℤ :=
  if !spec.IsZero then
    if spec.IsPercent then
      clampReserve available (pctOf available spec.Percent)
    else
      spec.Bytes
  else
    clampReserve available (pctOf available DefaultMaxSizePercent)

/-- One entry of `listReposWithAccessTime`, with `size` additionally
recording what `getDirSize(path)` returns for it during the sweep
(the no-per-mirror-errors assumption of the claims). -/
structure RepoInfo where
  key : String
  path : String
  accessTime : ℤ
  size : ℤ
deriving DecidableEq, Repr

/-- One step of the insertion sort `sort.Slice` runs for short slices
(Go's pdqsort falls back to insertion sort below 12 elements; the
comparator is exactly `repos[i].accessTime.Before(repos[j].accessTime)`
and never consults paths). Inserts after equal elements, as the stable
insertion does. -/
def insertRepo (r : RepoInfo) : List RepoInfo → List RepoInfo
  | [] => [r]
  | s :: rest =>
      if r.accessTime < s.accessTime then r :: s :: rest
      else s :: insertRepo r rest

/-- The `sort.Slice(repos, ...)` call of `MaybeEvict`, modelled as the
left-to-right insertion sort Go uses on short slices. -/
def sortRepos (l : List RepoInfo) : List RepoInfo :=
  l.foldl (fun acc r => insertRepo r acc) []

/-- `int64(float64(maxBytes) * 0.90)`: the eviction target.  The
`float64` constant `0.90` is modelled as the exact rational 9/10. -/
def targetSize (maxBytes : ℤ) : ℤ := truncRat (Rat.divInt (9 * maxBytes) 10)

/-- The eviction loop of `MaybeEvict` under the no-per-mirror-errors
assumption: while `currentSize > targetSize`, delete the next repo,
subtract its size, and delete its key from the access index.
Returns (evicted repos in order, final tracked size, final index). -/
def evictLoop (cur target : ℤ) (repos : List RepoInfo) (idx : List String) :
    List RepoInfo × ℤ × List String :=
  match repos with
  | [] => ([], cur, idx)
  | r :: rest =>
      if cur ≤ target then ([], cur, idx)
      else
        let res := evictLoop (cur - r.size) target rest (idx.filter (fun k => k ≠ r.key))
        (r :: res.1, res.2.1, res.2.2)

/-- Result of one `MaybeEvict` sweep. -/
structure EvictResult where
  evicted : List RepoInfo
  finalSize : ℤ
  finalIndex : List String
deriving DecidableEq, Repr

/-- `Cache.MaybeEvict` from `cache.go`, under the assumptions the
claims make (stat succeeds, listing succeeds, no per-mirror errors):
compute the budget; return if it is non-positive or not exceeded; else
sort by access time ascending and evict until at most 90% of budget. -/
def MaybeEvict (spec : Config.SizeSpec) (available currentSize : ℤ)
    (repos : List RepoInfo) (idx : List String) : EvictResult :=
  let maxBytes := getMaxSize spec available
  if maxBytes ≤ 0 then ⟨[], currentSize, idx⟩
  else if currentSize ≤ maxBytes then ⟨[], currentSize, idx⟩
  else
    let res := evictLoop currentSize (targetSize maxBytes) (sortRepos repos) idx
    ⟨res.1, res.2.1, res.2.2⟩

/-- `cleanEmptyParents`, over an abstract filesystem: paths are lists
of components from the filesystem root; `filepath.Dir` is `dropLast`
(the empty list standing for the `"/"` and `"."` loop bounds); a
directory's entries are the existing paths whose parent it is;
`os.Remove` succeeds only on an existing (empty) directory.
`fs` is the list of existing paths. -/
def cleanLoop (root : List String) (fs : List (List String)) (dir : List String) :
    List (List String) :=
  if dir = root ∨ dir = [] then fs
  else if dir ∉ fs then fs                          -- os.ReadDir fails: break
  else if (fs.filter (fun q => q.dropLast = dir)).length > 0 then fs
                                                    -- len(entries) > 0: break
  else cleanLoop root (fs.filter (fun q => q ≠ dir)) dir.dropLast
termination_by dir.length
decreasing_by
  simp only [List.length_dropLast]
  rename_i h1 _ _
  have hne : dir ≠ [] := by intro h; exact h1 (Or.inr h)
  have : 0 < dir.length := List.length_pos.mpr hne
  omega

/-- `Cache.cleanEmptyParents(path)`: start from the parent of the
removed mirror directory. -/
def cleanEmptyParents (root : List String) (fs : List (List String))
    (path : List String) : List (List String) :=
  cleanLoop root fs path.dropLast

end Mirror

/-! ## Bridging lemmas: kernel-computable rational forms vs. `ℚ` field
operations -/

lemma ratMulInt_eq (q : ℚ) (m : ℤ) : ratMulInt q m = q * m := by
  rw [ratMulInt, Rat.divInt_eq_div]
  push_cast
  conv_rhs => rw [← Rat.num_div_den q]
  rw [div_mul_eq_mul_div]

lemma ratNeg_eq (q : ℚ) : ratNeg q = -q := by
  rw [ratNeg, Rat.divInt_eq_div]
  push_cast
  rw [neg_div, Rat.num_div_den]

lemma truncRat_eq_floor (q : ℚ) (h : 0 ≤ q) : truncRat q = ⌊q⌋ := by
  rw [truncRat, Rat.floor_def]
  exact Int.tdiv_eq_ediv (Rat.num_nonneg.mpr h) (by exact_mod_cast Nat.zero_le q.den)

lemma truncRat_divInt_natCast (a : ℤ) (b : ℕ) (ha : 0 ≤ a) :
    truncRat (Rat.divInt a (b : ℤ)) = a / (b : ℤ) := by
  rw [truncRat_eq_floor _ (Rat.divInt_nonneg ha (by exact_mod_cast Nat.zero_le b)),
    Rat.divInt_eq_div, show ((b : ℤ) : ℚ) = (b : ℚ) by push_cast; ring,
    Rat.floor_intCast_div_natCast]

namespace Mirror

/-! ## C1: the minimum-free-space reserve -/

lemma clampReserve_spec (available t : ℤ) :
    min MinFreeSpace available ≤ available - clampReserve available t := by
  simp only [clampReserve, MinFreeSpace]
  split_ifs <;> omega

/-- C1 (amended): for percent and unset configurations the computed
budget `B` satisfies `A − B ≥ min(R, A)`; the absolute branch of
`getMaxSize` returns early and skips the reserve (see
`c1_counterexample`). -/
theorem c1_reserve_for_percent_and_unset (spec : Config.SizeSpec) (available : ℤ)
    (h : spec.IsZero || spec.IsPercent) :
    min MinFreeSpace available ≤ available - getMaxSize spec available := by
  simp only [getMaxSize]
  rcases Bool.or_eq_true _ _ |>.mp h with hz | hp
  · simp only [hz, Bool.not_true, Bool.false_eq_true, if_false]
    exact clampReserve_spec _ _
  · by_cases hz : spec.IsZero
    · simp only [hz, Bool.not_true, Bool.false_eq_true, if_false]
      exact clampReserve_spec _ _
    · simp only [Bool.not_eq_true', hz, Bool.not_false, if_true, hp]
      exact clampReserve_spec _ _

/-- C1 witness: a percent configuration at a concrete input. -/
theorem c1_reserve_for_percent_and_unset_witness :
    min MinFreeSpace (2 ^ 31) ≤ 2 ^ 31 - getMaxSize ⟨0, 50⟩ (2 ^ 31) :=
  c1_reserve_for_percent_and_unset ⟨0, 50⟩ (2 ^ 31) (by decide)

/-- C1 counterexample: an absolute spec of 2 GiB on a device with
exactly 2 GiB available is returned unreduced, so `A − B = 0` is
smaller than `min(R, A) = R = 2^30`: step 3 of the budget computation
is not applied to absolute byte counts. -/
theorem c1_counterexample :
    ¬ min MinFreeSpace (2 ^ 31) ≤ 2 ^ 31 - getMaxSize ⟨2 ^ 31, 0⟩ (2 ^ 31) := by
  have h : getMaxSize ⟨2 ^ 31, 0⟩ (2 ^ 31) = 2 ^ 31 := by decide
  rw [h]
  simp only [MinFreeSpace]
  omega

/-! ## C2: ordering of the eviction sort -/

lemma insertRepo_perm (r : RepoInfo) (l : List RepoInfo) :
    List.Perm (insertRepo r l) (r :: l) := by
  induction l with
  | nil => exact List.Perm.refl _
  | cons s rest ih =>
      simp only [insertRepo]
      split
      · exact List.Perm.refl _
      · exact (ih.cons s).trans (List.Perm.swap r s rest)

lemma mem_insertRepo {x r : RepoInfo} {l : List RepoInfo} :
    x ∈ insertRepo r l ↔ x = r ∨ x ∈ l := by
  rw [(insertRepo_perm r l).mem_iff, List.mem_cons]

lemma insertRepo_sorted (r : RepoInfo) {l : List RepoInfo}
    (h : l.Pairwise (fun a b => a.accessTime ≤ b.accessTime)) :
    (insertRepo r l).Pairwise (fun a b => a.accessTime ≤ b.accessTime) := by
  induction l with
  | nil => simp [insertRepo]
  | cons s rest ih =>
      rcases List.pairwise_cons.mp h with ⟨hs, hrest⟩
      simp only [insertRepo]
      split
      · rename_i hlt
        refine List.pairwise_cons.mpr ⟨?_, h⟩
        intro x hx
        rcases List.mem_cons.mp hx with hx | hx
        · exact hx ▸ le_of_lt hlt
        · exact le_trans (le_of_lt hlt) (hs x hx)
      · rename_i hnlt
        refine List.pairwise_cons.mpr ⟨?_, ih hrest⟩
        intro x hx
        rcases mem_insertRepo.mp hx with hx | hx
        · exact hx ▸ le_of_not_lt hnlt
        · exact hs x hx

lemma foldl_insertRepo_perm (l : List RepoInfo) :
    ∀ acc, List.Perm (List.foldl (fun acc r => insertRepo r acc) acc l) (l ++ acc) := by
  induction l with
  | nil => intro acc; exact List.Perm.refl _
  | cons r rest ih =>
      intro acc
      refine (ih (insertRepo r acc)).trans ?_
      refine (List.Perm.append_left rest (insertRepo_perm r acc)).trans ?_
      exact List.perm_middle

lemma sortRepos_perm (l : List RepoInfo) : List.Perm (sortRepos l) l := by
  simpa using foldl_insertRepo_perm l []

lemma sortRepos_sorted (l : List RepoInfo) :
    (sortRepos l).Pairwise (fun a b => a.accessTime ≤ b.accessTime) := by
  rw [sortRepos]
  have h : ∀ acc, acc.Pairwise (fun a b : RepoInfo => a.accessTime ≤ b.accessTime) →
      (List.foldl (fun acc r => insertRepo r acc) acc l).Pairwise
        (fun a b => a.accessTime ≤ b.accessTime) := by
    induction l with
    | nil => exact fun acc h => h
    | cons r rest ih => exact fun acc h => ih _ (insertRepo_sorted r h)
  exact h [] (by simp)

/-- C2 counterexample: two mirrors with equal access times, listed in
the order the filesystem walk produces them (`filepath.WalkDir` visits
names per directory in sorted order, so `a/x.git` is reached before
`a.b/y.git`): the sort leaves them in walk order even though
`a.b/y.git` is the lexicographically smaller path, because the
comparator passed to `sort.Slice` compares access times only. -/
theorem c2_counterexample :
    (RepoInfo.mk "a/x" "a/x.git" 5 1).accessTime
        = (RepoInfo.mk "a.b/y" "a.b/y.git" 5 1).accessTime ∧
    (RepoInfo.mk "a.b/y" "a.b/y.git" 5 1).path.toList
        < (RepoInfo.mk "a/x" "a/x.git" 5 1).path.toList ∧
    sortRepos [RepoInfo.mk "a/x" "a/x.git" 5 1, RepoInfo.mk "a.b/y" "a.b/y.git" 5 1]
      = [RepoInfo.mk "a/x" "a/x.git" 5 1, RepoInfo.mk "a.b/y" "a.b/y.git" 5 1] := by
  refine ⟨rfl, ?_, by decide⟩
  decide

/-- C2 (amended): `MaybeEvict` sorts the mirror list ascending by
access time; the comparator does not consult paths, so entries with
equal access times are not ordered by path (they keep the walk order,
see `c2_counterexample`). -/
theorem c2_sort_by_access_time (l : List RepoInfo) :
    (sortRepos l).Pairwise (fun a b => a.accessTime ≤ b.accessTime) ∧
      List.Perm (sortRepos l) l :=
  ⟨sortRepos_sorted l, sortRepos_perm l⟩

/-! ## C3 and C4: behaviour of the eviction loop -/

lemma evictLoop_evicted_take (t : ℤ) :
    ∀ (repos : List RepoInfo) (cur : ℤ) (idx : List String),
      ∃ k, (evictLoop cur t repos idx).1 = repos.take k := by
  intro repos
  induction repos with
  | nil => exact fun cur idx => ⟨0, rfl⟩
  | cons r rest ih =>
      intro cur idx
      simp only [evictLoop]
      split
      · exact ⟨0, rfl⟩
      · obtain ⟨k, hk⟩ := ih (cur - r.size) (List.filter (fun k => !decide (k = r.key)) idx)
        exact ⟨k + 1, by simp [hk]⟩

lemma evictLoop_index_mem (t : ℤ) :
    ∀ (repos : List RepoInfo) (cur : ℤ) (idx : List String) (key : String),
      key ∈ (evictLoop cur t repos idx).2.2 ↔
        key ∈ idx ∧ ∀ r ∈ (evictLoop cur t repos idx).1, key ≠ r.key := by
  intro repos
  induction repos with
  | nil => simp [evictLoop]
  | cons r rest ih =>
      intro cur idx key
      simp only [evictLoop]
      split
      · simp
      · rw [ih]
        simp only [List.mem_filter, List.mem_cons, decide_eq_true_eq]
        constructor
        · rintro ⟨⟨hidx, hne⟩, hall⟩
          exact ⟨hidx, fun r' hr' => by
            rcases hr' with hr' | hr'
            · exact hr' ▸ hne
            · exact hall r' hr'⟩
        · rintro ⟨hidx, hall⟩
          exact ⟨⟨hidx, hall r (Or.inl rfl)⟩, fun r' hr' => hall r' (Or.inr hr')⟩

lemma evictLoop_final_le (t : ℤ) :
    ∀ (repos : List RepoInfo) (cur : ℤ) (idx : List String),
      cur - (repos.map (fun r => r.size)).sum ≤ t →
        (evictLoop cur t repos idx).2.1 ≤ t := by
  intro repos
  induction repos with
  | nil => intro cur idx h; simpa [evictLoop] using h
  | cons r rest ih =>
      intro cur idx h
      simp only [List.map_cons, List.sum_cons] at h
      simp only [evictLoop]
      split
      · assumption
      · exact ih (cur - r.size) _ (by omega)

lemma targetSize_mul_le (B : ℤ) (hB : 0 ≤ B) : 10 * targetSize B ≤ 9 * B := by
  rw [targetSize, show (10 : ℤ) = ((10 : ℕ) : ℤ) by norm_num,
    truncRat_divInt_natCast _ _ (by omega)]
  omega

/-- C3: with pairwise-distinct access times and no per-mirror errors,
one `MaybeEvict` sweep removes a prefix of the time-sorted list — that
is, exactly the `k` oldest mirrors for the `k` it evicts — and each
removed fingerprint is deleted from the access index. -/
theorem c3_lru_eviction_order (spec : Config.SizeSpec) (available currentSize : ℤ)
    (repos : List RepoInfo) (idx : List String)
    (hdist : repos.Pairwise (fun a b => a.accessTime ≠ b.accessTime)) :
    (∃ k, (MaybeEvict spec available currentSize repos idx).evicted
        = (sortRepos repos).take k) ∧
    (∀ r ∈ (MaybeEvict spec available currentSize repos idx).evicted,
      ∀ s ∈ repos, s ∉ (MaybeEvict spec available currentSize repos idx).evicted →
        r.accessTime < s.accessTime) ∧
    (∀ key, key ∈ (MaybeEvict spec available currentSize repos idx).finalIndex ↔
      key ∈ idx ∧
        ∀ r ∈ (MaybeEvict spec available currentSize repos idx).evicted, key ≠ r.key) := by
  simp only [MaybeEvict]
  split_ifs with h1 h2
  · exact ⟨⟨0, by simp⟩, by simp, by simp⟩
  · exact ⟨⟨0, by simp⟩, by simp, by simp⟩
  · have hperm := sortRepos_perm repos
    have hsorted := sortRepos_sorted repos
    have hne : (sortRepos repos).Pairwise (fun a b => a.accessTime ≠ b.accessTime) :=
      (hperm.pairwise_iff (fun h => h.symm)).mpr hdist
    obtain ⟨k, hk⟩ := evictLoop_evicted_take (targetSize (getMaxSize spec available))
      (sortRepos repos) currentSize idx
    refine ⟨⟨k, hk⟩, ?_, ?_⟩
    · intro r hr s hs hsn
      simp only at hr hsn
      rw [hk] at hr hsn
      have hs' : s ∈ (sortRepos repos).take k ++ (sortRepos repos).drop k := by
        rw [List.take_append_drop]
        exact hperm.mem_iff.mpr hs
      have hsd : s ∈ (sortRepos repos).drop k := by
        rcases List.mem_append.mp hs' with h | h
        · exact absurd h hsn
        · exact h
      have hle := (List.pairwise_append.mp
        (by rw [List.take_append_drop]; exact hsorted)).2.2 r hr s hsd
      have hne' := (List.pairwise_append.mp
        (by rw [List.take_append_drop]; exact hne)).2.2 r hr s hsd
      exact lt_of_le_of_ne hle hne'
    · intro key
      exact evictLoop_index_mem _ _ _ _ _

/-- C3 witness: three mirrors with distinct times, budget forcing two
evictions. -/
theorem c3_lru_eviction_order_witness :
    (∃ k, (MaybeEvict ⟨3 * 2 ^ 20, 0⟩ (100 * 2 ^ 30) (5 * 2 ^ 20)
        [⟨"b", "b.git", 7, 2 ^ 20⟩, ⟨"a", "a.git", 3, 2 ^ 20⟩, ⟨"c", "c.git", 9, 3 * 2 ^ 20⟩]
        ["a", "b", "c"]).evicted
      = (sortRepos [⟨"b", "b.git", 7, 2 ^ 20⟩, ⟨"a", "a.git", 3, 2 ^ 20⟩,
          ⟨"c", "c.git", 9, 3 * 2 ^ 20⟩]).take k) ∧
    (∀ r ∈ (MaybeEvict ⟨3 * 2 ^ 20, 0⟩ (100 * 2 ^ 30) (5 * 2 ^ 20)
        [⟨"b", "b.git", 7, 2 ^ 20⟩, ⟨"a", "a.git", 3, 2 ^ 20⟩, ⟨"c", "c.git", 9, 3 * 2 ^ 20⟩]
        ["a", "b", "c"]).evicted,
      ∀ s ∈ [RepoInfo.mk "b" "b.git" 7 (2 ^ 20), RepoInfo.mk "a" "a.git" 3 (2 ^ 20),
          RepoInfo.mk "c" "c.git" 9 (3 * 2 ^ 20)],
        s ∉ (MaybeEvict ⟨3 * 2 ^ 20, 0⟩ (100 * 2 ^ 30) (5 * 2 ^ 20)
          [⟨"b", "b.git", 7, 2 ^ 20⟩, ⟨"a", "a.git", 3, 2 ^ 20⟩, ⟨"c", "c.git", 9, 3 * 2 ^ 20⟩]
          ["a", "b", "c"]).evicted →
          r.accessTime < s.accessTime) ∧
    (∀ key, key ∈ (MaybeEvict ⟨3 * 2 ^ 20, 0⟩ (100 * 2 ^ 30) (5 * 2 ^ 20)
        [⟨"b", "b.git", 7, 2 ^ 20⟩, ⟨"a", "a.git", 3, 2 ^ 20⟩, ⟨"c", "c.git", 9, 3 * 2 ^ 20⟩]
        ["a", "b", "c"]).finalIndex ↔
      key ∈ ["a", "b", "c"] ∧
        ∀ r ∈ (MaybeEvict ⟨3 * 2 ^ 20, 0⟩ (100 * 2 ^ 30) (5 * 2 ^ 20)
          [⟨"b", "b.git", 7, 2 ^ 20⟩, ⟨"a", "a.git", 3, 2 ^ 20⟩, ⟨"c", "c.git", 9, 3 * 2 ^ 20⟩]
          ["a", "b", "c"]).evicted, key ≠ r.key) :=
  c3_lru_eviction_order ⟨3 * 2 ^ 20, 0⟩ (100 * 2 ^ 30) (5 * 2 ^ 20)
    [⟨"b", "b.git", 7, 2 ^ 20⟩, ⟨"a", "a.git", 3, 2 ^ 20⟩, ⟨"c", "c.git", 9, 3 * 2 ^ 20⟩]
    ["a", "b", "c"] (by decide)

/-- C4: if usage is already at or below the budget the sweep deletes
nothing; and when the sweep does run (positive budget exceeded by
usage) with enough mirrors to reach the 90% target, the tracked usage
ends at or below 90% of the budget. -/
theorem c4_hysteresis (spec : Config.SizeSpec) (available currentSize : ℤ)
    (repos : List RepoInfo) (idx : List String) :
    (currentSize ≤ getMaxSize spec available →
      MaybeEvict spec available currentSize repos idx = ⟨[], currentSize, idx⟩) ∧
    (0 < getMaxSize spec available →
      getMaxSize spec available < currentSize →
      currentSize - (repos.map (fun r => r.size)).sum
          ≤ targetSize (getMaxSize spec available) →
      10 * (MaybeEvict spec available currentSize repos idx).finalSize
          ≤ 9 * getMaxSize spec available) := by
  constructor
  · intro hle
    simp only [MaybeEvict]
    split_ifs <;> rfl
  · intro hpos hexceed henough
    simp only [MaybeEvict]
    split_ifs with h1 h2
    · omega
    · omega
    · have hsum : ((sortRepos repos).map (fun r => r.size)).sum
          = (repos.map (fun r => r.size)).sum :=
        ((sortRepos_perm repos).map (fun r => r.size)).sum_eq
      have hfin := evictLoop_final_le (targetSize (getMaxSize spec available))
        (sortRepos repos) currentSize idx (by rw [hsum]; exact henough)
      have htgt := targetSize_mul_le (getMaxSize spec available) (le_of_lt hpos)
      simp only
      omega

/-- C4 witness: a sweep over usage already below budget deletes
nothing, and twelve 1 MiB mirrors against a 10 MiB budget end at or
below 90% of the budget. -/
theorem c4_hysteresis_witness :
    MaybeEvict ⟨10 * 2 ^ 20, 0⟩ (100 * 2 ^ 30) (5 * 2 ^ 20)
        [⟨"a", "a.git", 3, 2 ^ 20⟩] ["a"]
      = ⟨[], 5 * 2 ^ 20, ["a"]⟩ ∧
    10 * (MaybeEvict ⟨10 * 2 ^ 20, 0⟩ (100 * 2 ^ 30) (12 * 2 ^ 20)
        ((List.range 12).map (fun i => ⟨toString i, toString i, (i : ℤ), 2 ^ 20⟩))
        ((List.range 12).map (fun i => toString i))).finalSize
      ≤ 9 * getMaxSize ⟨10 * 2 ^ 20, 0⟩ (100 * 2 ^ 30) :=
  ⟨(c4_hysteresis ⟨10 * 2 ^ 20, 0⟩ (100 * 2 ^ 30) (5 * 2 ^ 20)
      [⟨"a", "a.git", 3, 2 ^ 20⟩] ["a"]).1 (by decide),
   (c4_hysteresis ⟨10 * 2 ^ 20, 0⟩ (100 * 2 ^ 30) (12 * 2 ^ 20)
      ((List.range 12).map (fun i => ⟨toString i, toString i, (i : ℤ), 2 ^ 20⟩))
      ((List.range 12).map (fun i => toString i))).2 (by decide) (by decide) (by decide)⟩

/-! ## C9: parent-directory cleanup never touches the mirror root -/

lemma cleanLoop_mem (root : List String) :
    ∀ (n : ℕ) (dir : List String), dir.length ≤ n → ∀ fs : List (List String),
      (∀ d ∈ cleanLoop root fs dir, d ∈ fs) ∧
        (root ∈ fs → root ∈ cleanLoop root fs dir) := by
  intro n
  induction n with
  | zero =>
      intro dir hlen fs
      have hdir : dir = [] := List.eq_nil_of_length_eq_zero (by omega)
      rw [cleanLoop.eq_def]
      simp [hdir]
  | succ n ih =>
      intro dir hlen fs
      rw [cleanLoop.eq_def]
      by_cases h1 : dir = root ∨ dir = []
      · rw [if_pos h1]; exact ⟨fun d hd => hd, fun h => h⟩
      rw [if_neg h1]
      by_cases h2 : dir ∈ fs
      case neg => rw [if_pos h2]; exact ⟨fun d hd => hd, fun h => h⟩
      rw [if_neg (not_not_intro h2)]
      by_cases h3 : (List.filter (fun q => decide (q.dropLast = dir)) fs).length > 0
      · rw [if_pos h3]; exact ⟨fun d hd => hd, fun h => h⟩
      rw [if_neg h3]
      · have hne : dir ≠ [] := fun h => h1 (Or.inr h)
        have hlen' : dir.dropLast.length ≤ n := by
          have : 0 < dir.length := List.length_pos.mpr hne
          simp only [List.length_dropLast]
          omega
        obtain ⟨hsub, hroot⟩ := ih dir.dropLast hlen' (List.filter (fun q => q ≠ dir) fs)
        refine ⟨fun d hd => ?_, fun h => ?_⟩
        · exact List.mem_of_mem_filter (hsub d hd)
        · refine hroot ?_
          refine List.mem_filter.mpr ⟨h, ?_⟩
          simp only [decide_eq_true_eq]
          exact fun hcon => h1 (Or.inl hcon.symm)

/-- C9: after the parent-cleanup pass that follows a mirror removal,
every surviving path already existed, and the mirror root itself is
never removed — for any starting path, if the root existed before the
pass it still exists after it. -/
theorem c9_root_preserved (root path : List String) (fs : List (List String))
    (hroot : root ∈ fs) :
    root ∈ cleanEmptyParents root fs path ∧
      ∀ d ∈ cleanEmptyParents root fs path, d ∈ fs := by
  obtain ⟨hsub, hr⟩ := cleanLoop_mem root path.dropLast.length path.dropLast le_rfl fs
  exact ⟨hr hroot, hsub⟩

/-- C9 witness: a two-level mirror path under the root. -/
theorem c9_root_preserved_witness :
    ["m"] ∈ cleanEmptyParents ["m"] [["m"], ["m", "h"], ["m", "h", "o"]] ["m", "h", "o"] ∧
      ∀ d ∈ cleanEmptyParents ["m"] [["m"], ["m", "h"], ["m", "h", "o"]] ["m", "h", "o"],
        d ∈ [["m"], ["m", "h"], ["m", "h", "o"]] :=
  c9_root_preserved ["m"] ["m", "h", "o"] [["m"], ["m", "h"], ["m", "h", "o"]] (by decide)

end Mirror

/-! ## Character-class facts and string-decomposition lemmas for the
size parser -/

namespace Config

lemma alpha_not_digit {c : Char} (h : isAlphaChar c = true) : isDigitChar c = false := by
  simp only [isAlphaChar, Bool.or_eq_true, Bool.and_eq_true, decide_eq_true_eq] at h
  rw [Bool.eq_false_iff]
  intro hd
  simp only [isDigitChar, Bool.and_eq_true, decide_eq_true_eq] at hd
  omega

lemma space_not_digit {c : Char} (h : isRegexSpace c = true) : isDigitChar c = false := by
  simp only [isRegexSpace, Bool.or_eq_true, decide_eq_true_eq] at h
  rw [Bool.eq_false_iff]
  intro hd
  simp only [isDigitChar, Bool.and_eq_true, decide_eq_true_eq] at hd
  omega

lemma digit_not_trim {c : Char} (h : isDigitChar c = true) : isTrimSpace c = false := by
  simp only [isDigitChar, Bool.and_eq_true, decide_eq_true_eq] at h
  rw [Bool.eq_false_iff]
  intro hd
  simp only [isTrimSpace, Bool.or_eq_true, decide_eq_true_eq] at hd
  omega

lemma alpha_not_trim {c : Char} (h : isAlphaChar c = true) : isTrimSpace c = false := by
  simp only [isAlphaChar, Bool.or_eq_true, Bool.and_eq_true, decide_eq_true_eq] at h
  rw [Bool.eq_false_iff]
  intro hd
  simp only [isTrimSpace, Bool.or_eq_true, decide_eq_true_eq] at hd
  omega

lemma alpha_not_regexSpace {c : Char} (h : isAlphaChar c = true) : isRegexSpace c = false := by
  simp only [isAlphaChar, Bool.or_eq_true, Bool.and_eq_true, decide_eq_true_eq] at h
  rw [Bool.eq_false_iff]
  intro hd
  simp only [isRegexSpace, Bool.or_eq_true, decide_eq_true_eq] at hd
  omega

lemma dropWhile_eq_self_of_head {p : Char → Bool} {s : Chars}
    (h : ∀ c ∈ s.take 1, p c = false) : s.dropWhile p = s := by
  cases s with
  | nil => rfl
  | cons c t =>
      rw [List.dropWhile_cons, h c (by simp)]
      simp

lemma trimSpace_eq_self_of {s : Chars}
    (h1 : ∀ c ∈ s.take 1, isTrimSpace c = false)
    (h2 : ∀ c ∈ s.reverse.take 1, isTrimSpace c = false) :
    trimSpace s = s := by
  rw [trimSpace, dropWhile_eq_self_of_head h1, dropWhile_eq_self_of_head h2,
    List.reverse_reverse]

lemma takeWhile_append_all {p : Char → Bool} {xs ys : Chars}
    (hx : ∀ c ∈ xs, p c = true) (hy : ∀ c ∈ ys.take 1, p c = false) :
    (xs ++ ys).takeWhile p = xs ∧ (xs ++ ys).dropWhile p = ys := by
  induction xs with
  | nil =>
      refine ⟨?_, dropWhile_eq_self_of_head hy⟩
      cases ys with
      | nil => rfl
      | cons c t =>
          rw [List.nil_append, List.takeWhile_cons, hy c (by simp)]
          simp
  | cons x t ih =>
      have hpx : p x = true := hx x (by simp)
      obtain ⟨h1, h2⟩ := ih (fun c hc => hx c (by simp [hc]))
      constructor
      · rw [List.cons_append, List.takeWhile_cons, hpx]
        simp only [if_true, h1]
      · rw [List.cons_append, List.dropWhile_cons, hpx]
        simp only [if_true, h2]

lemma take_one_append_left {xs ys : Chars} (h : xs ≠ []) :
    (xs ++ ys).take 1 = xs.take 1 := by
  cases xs with
  | nil => exact absurd rfl h
  | cons c t => simp

lemma decimal_cases {num : Chars} (h : isDecimalLit num = true) :
    (num ≠ [] ∧ ∀ c ∈ num, isDigitChar c = true) ∨
    (∃ D F, num = D ++ '.' :: F ∧ D ≠ [] ∧ F ≠ [] ∧
      (∀ c ∈ D, isDigitChar c = true) ∧ (∀ c ∈ F, isDigitChar c = true) ∧
      num.takeWhile isDigitChar = D) := by
  unfold isDecimalLit at h
  split at h
  · rename_i heq
    left
    have hself : num.takeWhile isDigitChar = num := by
      have happ := List.takeWhile_append_dropWhile (p := isDigitChar) (l := num)
      rw [heq, List.append_nil] at happ
      exact happ
    simp only [Bool.not_eq_true', decide_eq_false_iff_not] at h
    refine ⟨fun hnil => h (by simp [hnil]), fun c hc => List.mem_takeWhile_imp (hself ▸ hc)⟩
  · rename_i c fs heq
    right
    simp only [Bool.and_eq_true, Bool.not_eq_true', decide_eq_false_iff_not,
      decide_eq_true_eq, List.all_eq_true] at h
    obtain ⟨rfl, hds, hfs, hall⟩ := h
    refine ⟨num.takeWhile isDigitChar, fs, ?_, hds, hfs, ?_, ?_, rfl⟩
    · conv_lhs => rw [← List.takeWhile_append_dropWhile (p := isDigitChar) (l := num)]
      rw [heq]
    · exact fun c hc => List.mem_takeWhile_imp hc
    · exact fun c hc => hall c hc

lemma decimal_ne_nil {num : Chars} (h : isDecimalLit num = true) : num ≠ [] := by
  rcases decimal_cases h with ⟨hne, _⟩ | ⟨D, F, rfl, hD, _, _, _, _⟩
  · exact hne
  · simp

lemma decimal_head_digit {num : Chars} (h : isDecimalLit num = true) :
    ∀ c ∈ num.take 1, isDigitChar c = true := by
  rcases decimal_cases h with ⟨hne, hall⟩ | ⟨D, F, rfl, hD, _, hDd, _, _⟩
  · exact fun c hc => hall c (List.mem_of_mem_take hc)
  · intro c hc
    rw [take_one_append_left hD] at hc
    exact hDd c (List.mem_of_mem_take hc)

lemma decimal_last_digit {num : Chars} (h : isDecimalLit num = true) :
    ∀ c ∈ num.reverse.take 1, isDigitChar c = true := by
  rcases decimal_cases h with ⟨hne, hall⟩ | ⟨D, F, rfl, _, hF, _, hFd, _⟩
  · exact fun c hc => hall c (List.mem_reverse.mp (List.mem_of_mem_take hc))
  · intro c hc
    rw [List.reverse_append, List.reverse_cons] at hc
    rw [take_one_append_left (by simp), take_one_append_left (by simp [hF])] at hc
    exact hFd c (List.mem_reverse.mp (List.mem_of_mem_take hc))

lemma finishUnit_decomp (X sp unit : Chars)
    (hsp : ∀ c ∈ sp, isRegexSpace c = true)
    (hunit : ∀ c ∈ unit, isAlphaChar c = true) :
    finishUnit X (sp ++ unit) = some (X, unit) := by
  have hu_head : ∀ c ∈ unit.take 1, isRegexSpace c = false :=
    fun c hc => alpha_not_regexSpace (hunit c (List.mem_of_mem_take hc))
  obtain ⟨-, hdw⟩ := takeWhile_append_all hsp hu_head
  have hall : ∀ c ∈ unit ++ ([] : Chars), isAlphaChar c = true := by
    simpa using hunit
  obtain ⟨htw2, hdw2⟩ := takeWhile_append_all hall
    (show ∀ c ∈ ([] : Chars).take 1, isAlphaChar c = false by simp)
  simp only [List.append_nil] at htw2 hdw2
  rw [finishUnit]
  simp [hdw, hdw2, htw2]

lemma matchSize_decomp (num sp unit : Chars)
    (hnum : isDecimalLit num = true)
    (hsp : ∀ c ∈ sp, isRegexSpace c = true)
    (hunit : ∀ c ∈ unit, isAlphaChar c = true) :
    matchSize (num ++ (sp ++ unit)) = some (num, unit) := by
  have hrest_head : ∀ c ∈ (sp ++ unit).take 1, isDigitChar c = false := by
    intro c hc
    rcases List.mem_append.mp (List.mem_of_mem_take hc) with h | h
    · exact space_not_digit (hsp c h)
    · exact alpha_not_digit (hunit c h)
  have hrest_ne_dot : ∀ r2 : Chars, sp ++ unit ≠ '.' :: r2 := by
    intro r2 heq
    have hmem : ('.' : Char) ∈ sp ++ unit := by rw [heq]; simp
    rcases List.mem_append.mp hmem with h | h
    · exact absurd (hsp '.' h) (by decide)
    · exact absurd (hunit '.' h) (by decide)
  rcases decimal_cases hnum with ⟨hne, hdig⟩ | ⟨D, F, rfl, hD, hF, hDd, hFd, -⟩
  · obtain ⟨htw, hdw⟩ := takeWhile_append_all hdig hrest_head
    rw [matchSize]
    simp only [htw, hdw, if_neg hne]
    rcases hspu : sp ++ unit with _ | ⟨c, t⟩
    · obtain ⟨hsp0, hu0⟩ := List.append_eq_nil.mp hspu
      have := finishUnit_decomp num sp unit hsp hunit
      rw [hspu] at this
      rw [this, hu0]
    · have hcdot : ¬ c = '.' := by
        intro hcon
        exact hrest_ne_dot t (by rw [hspu, hcon])
      simp only [if_neg hcdot]
      have := finishUnit_decomp num sp unit hsp hunit
      rw [hspu] at this
      exact this
  · have hassoc : (D ++ '.' :: F) ++ (sp ++ unit) = D ++ ('.' :: (F ++ (sp ++ unit))) := by
      simp
    have hdot_head : ∀ c ∈ ('.' :: (F ++ (sp ++ unit))).take 1, isDigitChar c = false := by
      intro c hc
      simp only [List.take_succ_cons, List.take_zero, List.mem_singleton] at hc
      rw [hc]
      decide
    obtain ⟨htw, hdw⟩ := takeWhile_append_all hDd hdot_head
    obtain ⟨htwF, hdwF⟩ := takeWhile_append_all hFd hrest_head
    rw [hassoc, matchSize]
    simp only [htw, hdw, if_neg hD, if_pos rfl, htwF, hdwF, if_neg hF]
    have := finishUnit_decomp (D ++ '.' :: F) sp unit hsp hunit
    simpa using this

lemma ParseSize_decomp (num sp unit : Chars)
    (hnum : isDecimalLit num = true)
    (hsp : ∀ c ∈ sp, isRegexSpace c = true)
    (hunit : ∀ c ∈ unit, isAlphaChar c = true)
    (hcorner : unit = [] → sp = []) :
    ParseSize (num ++ (sp ++ unit)) =
      (match unitMult (toUpperChars unit) with
       | none => Except.error SizeErr.unknownUnit
       | some m => Except.ok (truncRat (ratMulInt (decimalVal num) m))) := by
  have hnumne : num ≠ [] := decimal_ne_nil hnum
  have hhead : ∀ c ∈ (num ++ (sp ++ unit)).take 1, isTrimSpace c = false := by
    intro c hc
    rw [take_one_append_left hnumne] at hc
    exact digit_not_trim (decimal_head_digit hnum c hc)
  have hlast : ∀ c ∈ (num ++ (sp ++ unit)).reverse.take 1, isTrimSpace c = false := by
    intro c hc
    by_cases hu : unit = []
    · rw [hcorner hu, hu] at hc
      simp only [List.append_nil] at hc
      exact digit_not_trim (decimal_last_digit hnum c hc)
    · rw [List.reverse_append, List.reverse_append,
        take_one_append_left (by simp [hu]), take_one_append_left (by simp [hu])] at hc
      exact alpha_not_trim (hunit c (List.mem_reverse.mp (List.mem_of_mem_take hc)))
  have htrim : trimSpace (num ++ (sp ++ unit)) = num ++ (sp ++ unit) :=
    trimSpace_eq_self_of hhead hlast
  rw [ParseSize]
  simp only [htrim]
  rw [if_neg (show ¬num ++ (sp ++ unit) = [] by simp [hnumne]),
    matchSize_decomp num sp unit hnum hsp hunit]

/-! ## C5 and C6: the size parser -/

lemma claimFactor_some_unitMult {u : Chars} {m : ℤ} (hm : claimFactor u = some m) :
    unitMult (toUpperChars u) = some m := by
  unfold claimFactor at hm
  generalize toUpperChars u = v at hm ⊢
  simp only [Bool.or_eq_true, decide_eq_true_eq] at hm
  split_ifs at hm with h1 h2 h3 h4 h5 h6 h7 h8 h9
  · subst h1; exact hm ▸ rfl
  · subst h2; exact hm ▸ rfl
  · subst h3; exact hm ▸ rfl
  · subst h4; exact hm ▸ rfl
  · rcases h5 with h | h <;> (subst h; exact hm ▸ rfl)
  · rcases h6 with h | h <;> (subst h; exact hm ▸ rfl)
  · rcases h7 with h | h <;> (subst h; exact hm ▸ rfl)
  · rcases h8 with h | h <;> (subst h; exact hm ▸ rfl)
  · rcases h9 with h | h <;> (subst h; exact hm ▸ rfl)

/-- C5: `ParseSize` multiplies the parsed decimal by the unit factor of
the claim's table (SI `KB/MB/GB/TB` as powers of 1000, IEC
`KiB/MiB/GiB/TiB` and bare `K/M/G/T` as powers of 1024, none or `B` as
1, case-insensitively) and truncates toward zero; in particular
`ParseSize "1.5GiB" = 1610612736` and `ParseSize "200GB" =
200000000000`. -/
theorem c5_parse_size (num unit : Chars) (q : ℚ) (m : ℤ)
    (hnum : isDecimalLit num = true)
    (hq : decimalVal num = q)
    (hunit : ∀ c ∈ unit, isAlphaChar c = true)
    (hm : claimFactor unit = some m) :
    ParseSize (num ++ unit) = .ok (truncRat (q * m)) ∧
    ParseSize "1.5GiB".toList = .ok 1610612736 ∧
    ParseSize "200GB".toList = .ok 200000000000 := by
  refine ⟨?_, by decide, by decide⟩
  have h := ParseSize_decomp num [] unit hnum (by simp) hunit (fun _ => rfl)
  rw [List.nil_append] at h
  rw [h, claimFactor_some_unitMult hm]
  simp only [ratMulInt_eq, hq]

/-- C5 witness: a lower-case SI unit at a concrete input. -/
theorem c5_parse_size_witness :
    ParseSize ("2".toList ++ "kb".toList) = .ok (truncRat ((2 : ℚ) * ((1000 : ℤ) : ℚ))) :=
  (c5_parse_size "2".toList "kb".toList 2 1000 (by decide) (by decide)
    (by decide) (by decide)).1

/-- C6 counterexample: `ParseSize "-5MB"` fails with the
invalid-format kind (the regexp has no sign, so the match fails before
any range check), not the out-of-range kind the claim names. -/
theorem c6_counterexample :
    ParseSize "-5MB".toList = .error .invalidFormat ∧
      SizeErr.invalidFormat ≠ SizeErr.outOfRange := by
  exact ⟨by decide, by decide⟩

lemma dropWhile_append_singleton {p : Char → Bool} (l : Chars) (a : Char)
    (h : p a = false) :
    ∃ u, List.dropWhile p (l ++ [a]) = u ++ [a] := by
  induction l with
  | nil => exact ⟨[], by simp [List.dropWhile_cons, h]⟩
  | cons c t ih =>
      by_cases hc : p c = true
      · obtain ⟨u, hu⟩ := ih
        exact ⟨u, by rw [List.cons_append, List.dropWhile_cons, hc]; simpa using hu⟩
      · refine ⟨c :: t, ?_⟩
        rw [List.cons_append, List.dropWhile_cons]
        simp [Bool.eq_false_iff.mpr hc]

lemma trimSpace_dash_head (s : Chars) :
    ∃ s', trimSpace ('-' :: s) = '-' :: s' := by
  rw [trimSpace]
  have h1 : List.dropWhile isTrimSpace ('-' :: s) = '-' :: s := by
    rw [List.dropWhile_cons]
    simp [show isTrimSpace '-' = false by decide]
  rw [h1, List.reverse_cons]
  obtain ⟨u, hu⟩ := dropWhile_append_singleton s.reverse '-'
    (show isTrimSpace '-' = false by decide)
  exact ⟨u.reverse, by rw [hu]; simp⟩

lemma ParseSize_dash (s : Chars) : ParseSize ('-' :: s) = .error .invalidFormat := by
  obtain ⟨s', hs'⟩ := trimSpace_dash_head s
  rw [ParseSize]
  simp only [hs']
  rw [if_neg (by simp), matchSize]
  simp [show isDigitChar '-' = false by decide, List.takeWhile_cons]

/-- C6 (amended): negative sizes such as `"-5MB"` are rejected with the
invalid-format kind (the regexp rejects the sign before any range
check); `ParseSizeSpec` fails with the out-of-range kind exactly for
percentage strings whose parsed value lies outside (0, 100], and
accepts every fractional percentage inside it. -/
theorem c6_error_kinds :
    (∀ s : Chars, ParseSize ('-' :: s) = .error .invalidFormat) ∧
    (∀ s0 u : Chars, ∀ q : ℚ, trimSpace s0 = u ++ ['%'] →
      parseFloatChars (trimSpace u) = some q →
      ((ParseSizeSpec s0 = .error .outOfRange ↔ (q ≤ 0 ∨ 100 < q)) ∧
       (0 < q → q ≤ 100 → ParseSizeSpec s0 = .ok ⟨0, q⟩))) ∧
    ParseSizeSpec "80%".toList = .ok ⟨0, 80⟩ ∧
    ParseSizeSpec "0%".toList = .error .outOfRange ∧
    ParseSizeSpec "101%".toList = .error .outOfRange := by
  refine ⟨ParseSize_dash, ?_, by decide, by decide, by decide⟩
  intro s0 u q htrim hfloat
  have hlast : (u ++ ['%']).getLast? = some '%' := List.getLast?_concat u
  have hdrop : (u ++ ['%']).dropLast = u := List.dropLast_concat
  rw [ParseSizeSpec]
  simp only [htrim]
  rw [if_neg (by simp), if_pos (by rw [hlast]), hdrop, hfloat]
  simp only []
  constructor
  · by_cases hq : q ≤ 0 ∨ 100 < q
    · rw [if_pos (by simpa using hq)]
      simpa using hq
    · rw [if_neg (by simpa using hq)]
      constructor
      · intro hcon
        exact absurd hcon (by simp)
      · intro hcon
        exact absurd hcon hq
  · intro h1 h2
    rw [if_neg (by
      simp only [Bool.or_eq_true, decide_eq_true_eq, not_or, not_le, not_lt]
      exact ⟨h1, h2⟩)]

/-- C6 witness: the negative input and the in-range percentage at
concrete inputs. -/
theorem c6_error_kinds_witness :
    ParseSize ('-' :: "5MB".toList) = .error .invalidFormat ∧
    (ParseSizeSpec "80%".toList = .error .outOfRange ↔ ((80 : ℚ) ≤ 0 ∨ 100 < (80 : ℚ))) ∧
    ParseSizeSpec "80%".toList = .ok ⟨0, 80⟩ :=
  ⟨c6_error_kinds.1 "5MB".toList,
   (c6_error_kinds.2.1 "80%".toList "80".toList 80 (by decide) (by decide)).1,
   (c6_error_kinds.2.1 "80%".toList "80".toList 80 (by decide) (by decide)).2
     (by decide) (by decide)⟩

end Config

/-! ## C10: the two size formatters agree -/

lemma fsLoop_mirror_eq_config :
    ∀ (fuel n d exp : ℕ), Mirror.fsLoop fuel n d exp = Config.fsLoop fuel n d exp := by
  intro fuel
  induction fuel with
  | zero => intro n d exp; rfl
  | succ f ih =>
      intro n d exp
      simp only [Mirror.fsLoop, Config.fsLoop]
      split
      · exact ih _ _ _
      · rfl

/-- C10: the package-private `mirror.formatSize` and the exported
`config.FormatSize` are extensionally equal: they return the same
string on every `int64` input. -/
theorem c10_formatters_agree (bytes : ℤ) :
    Mirror.formatSize bytes = Config.FormatSize bytes := by
  simp only [Mirror.formatSize, Config.FormatSize, fsLoop_mirror_eq_config]

/-! ## Decimal rendering: `%d` digits round-trip through `digitsVal` -/

lemma foldl_digitsVal (ds : Chars) : ∀ a : ℕ,
    ds.foldl (fun a c => 10 * a + (c.toNat - 48)) a = a * 10 ^ ds.length + digitsVal ds := by
  induction ds with
  | nil => intro a; simp [digitsVal]
  | cons c t ih =>
      intro a
      have hv : digitsVal (c :: t) = (c.toNat - 48) * 10 ^ t.length + digitsVal t := by
        rw [digitsVal, List.foldl_cons, ih]
        simp
      rw [List.foldl_cons, ih, hv, List.length_cons, pow_succ]
      ring

lemma digitsVal_append (xs ys : Chars) :
    digitsVal (xs ++ ys) = digitsVal xs * 10 ^ ys.length + digitsVal ys := by
  rw [digitsVal, List.foldl_append]
  exact foldl_digitsVal ys (digitsVal xs)

lemma digitsVal_singleton (c : Char) : digitsVal [c] = c.toNat - 48 := by
  simp [digitsVal]

lemma digitChar_toNat {d : ℕ} (h : d < 10) : (digitChar d).toNat = 48 + d := by
  interval_cases d <;> decide

lemma isDigitChar_digitChar {d : ℕ} (h : d < 10) : isDigitChar (digitChar d) = true := by
  interval_cases d <;> decide

lemma natToDigitsAux_append : ∀ (fuel n : ℕ) (acc : Chars),
    natToDigitsAux fuel n acc = natToDigitsAux fuel n [] ++ acc := by
  intro fuel
  induction fuel with
  | zero => intro n acc; rfl
  | succ f ih =>
      intro n acc
      by_cases hn : n = 0
      · simp [natToDigitsAux, hn]
      · rw [natToDigitsAux, if_neg hn, ih, natToDigitsAux, if_neg hn,
          ih (n / 10) [digitChar (n % 10)], List.append_assoc]
        rfl

lemma natToDigitsAux_all_digits : ∀ (fuel n : ℕ),
    ∀ c ∈ natToDigitsAux fuel n [], isDigitChar c = true := by
  intro fuel
  induction fuel with
  | zero => intro n c hc; exact absurd hc (by simp [natToDigitsAux])
  | succ f ih =>
      intro n c hc
      by_cases hn : n = 0
      · rw [natToDigitsAux, if_pos hn] at hc
        exact absurd hc (by simp)
      · rw [natToDigitsAux, if_neg hn,
          natToDigitsAux_append f (n / 10) [digitChar (n % 10)]] at hc
        rcases List.mem_append.mp hc with h | h
        · exact ih (n / 10) c h
        · rw [List.mem_singleton.mp h]
          exact isDigitChar_digitChar (Nat.mod_lt n (by omega))

lemma natToDigitsAux_val : ∀ (fuel n : ℕ), n < 10 ^ fuel →
    digitsVal (natToDigitsAux fuel n []) = n := by
  intro fuel
  induction fuel with
  | zero =>
      intro n h
      have : n = 0 := by simpa using h
      simp [natToDigitsAux, this, digitsVal]
  | succ f ih =>
      intro n h
      by_cases hn : n = 0
      · simp [natToDigitsAux, hn, digitsVal]
      · rw [natToDigitsAux, if_neg hn,
          natToDigitsAux_append f (n / 10) [digitChar (n % 10)], digitsVal_append,
          ih (n / 10) (by
            rw [Nat.div_lt_iff_lt_mul (by omega)]
            calc n < 10 ^ (f + 1) := h
              _ = 10 ^ f * 10 := by rw [pow_succ]),
          digitsVal_singleton, digitChar_toNat (Nat.mod_lt n (by omega))]
        simp only [List.length_cons, List.length_nil, pow_one]
        omega

lemma natToDigits_val {n : ℕ} (h : n < 10 ^ 20) : digitsVal (natToDigits n) = n := by
  by_cases hn : n = 0
  · simp [natToDigits, hn]; decide
  · rw [natToDigits, if_neg hn]
    exact natToDigitsAux_val 20 n h

lemma natToDigits_all_digits (n : ℕ) : ∀ c ∈ natToDigits n, isDigitChar c = true := by
  by_cases hn : n = 0
  · intro c hc
    rw [natToDigits, if_pos hn, List.mem_singleton] at hc
    rw [hc]; decide
  · rw [natToDigits, if_neg hn]
    exact natToDigitsAux_all_digits 20 n

lemma natToDigits_ne_nil (n : ℕ) : natToDigits n ≠ [] := by
  by_cases hn : n = 0
  · simp [natToDigits, hn]
  · rw [natToDigits, if_neg hn, natToDigitsAux, if_neg hn,
      natToDigitsAux_append 19 (n / 10) [digitChar (n % 10)]]
    simp

/-! ## C7: the size-loop characterization of `FormatSize` -/

lemma fsLoop_correct : ∀ (fuel n d exp : ℕ), n < 1024 ^ fuel →
    ∃ j, Config.fsLoop fuel n d exp = (d * 1024 ^ j, exp + j) ∧
      n / 1024 ^ j < 1024 ∧ (∀ i, i < j → 1024 ≤ n / 1024 ^ i) := by
  intro fuel
  induction fuel with
  | zero =>
      intro n d exp h
      have hn : n = 0 := by simpa using h
      exact ⟨0, by simp [Config.fsLoop], by simp [hn], fun i hi => absurd hi (by omega)⟩
  | succ f ih =>
      intro n d exp h
      rw [Config.fsLoop]
      by_cases h1 : 1024 ≤ n
      · rw [if_pos h1]
        obtain ⟨j, hj, hlt, hall⟩ := ih (n / 1024) (d * 1024) (exp + 1) (by
          rw [Nat.div_lt_iff_lt_mul (by omega)]
          calc n < 1024 ^ (f + 1) := h
            _ = 1024 ^ f * 1024 := by rw [pow_succ])
        refine ⟨j + 1, ?_, ?_, ?_⟩
        · rw [hj]
          simp only [Prod.mk.injEq]
          exact ⟨by rw [pow_succ]; ring, by omega⟩
        · rw [Nat.div_div_eq_div_mul, ← pow_succ'] at hlt
          exact hlt
        · intro i hi
          cases i with
          | zero => simpa using h1
          | succ i' =>
              have := hall i' (by omega)
              rw [Nat.div_div_eq_div_mul, ← pow_succ'] at this
              exact this
      · rw [if_neg h1]
        exact ⟨0, by simp, by simpa using Nat.lt_of_not_le h1,
          fun i hi => absurd hi (by omega)⟩

/-- C7: `FormatSize` renders `"<n> B"` below 1024 bytes; otherwise it
renders `"%.1f <u>iB"` where the exponent is chosen so that
`1024^(exp+1) ≤ n < 1024^(exp+2)` — i.e. the mantissa `n / 1024^(exp+1)`
lies in [1.0, 1024.0) — and `u` is drawn from `KMGTPE`; in particular
`FormatSize 1024 = "1.0 KiB"`, `FormatSize (200·2^30) = "200.0 GiB"`,
and `FormatSize 0 = "0 B"`. -/
theorem c7_format_size (n : ℤ) :
    (n < 1024 → Config.FormatSize n = intToDigits n ++ " B".toList) ∧
    (1024 ≤ n → n < 2 ^ 63 → ∃ exp, exp ≤ 5 ∧
      1024 ^ (exp + 1) ≤ n.toNat ∧ n.toNat < 1024 ^ (exp + 2) ∧
      Config.FormatSize n
        = fix1 n.toNat (1024 ^ (exp + 1)) ++ ' ' :: unitChar exp :: "iB".toList ∧
      unitChar exp ∈ ['K', 'M', 'G', 'T', 'P', 'E']) ∧
    Config.FormatSize 1024 = "1.0 KiB".toList ∧
    Config.FormatSize (200 * 2 ^ 30) = "200.0 GiB".toList ∧
    Config.FormatSize 0 = "0 B".toList := by
  refine ⟨?_, ?_, by decide, by decide, by decide⟩
  · intro h
    rw [Config.FormatSize, if_pos h]
    rfl
  · intro h1 h2
    have hb1 : 1024 ≤ n.toNat := by omega
    have hb2 : n.toNat < 2 ^ 63 := by omega
    obtain ⟨j, hj, hlt, hall⟩ := fsLoop_correct 7 (n.toNat / 1024) 1024 0 (by
      have : n.toNat / 1024 < 2 ^ 63 := by omega
      calc n.toNat / 1024 < 2 ^ 63 := this
        _ < 1024 ^ 7 := by norm_num)
    have hup : n.toNat < 1024 ^ (j + 2) := by
      rw [Nat.div_div_eq_div_mul, ← pow_succ'] at hlt
      have := (Nat.div_lt_iff_lt_mul (by positivity)).mp hlt
      calc n.toNat < 1024 * 1024 ^ (j + 1) := this
        _ = 1024 ^ (j + 2) := (pow_succ' 1024 (j + 1)).symm
    have hlo : 1024 ^ (j + 1) ≤ n.toNat := by
      cases j with
      | zero => simpa using hb1
      | succ j' =>
          have := hall j' (by omega)
          rw [Nat.div_div_eq_div_mul, ← pow_succ'] at this
          have := (Nat.le_div_iff_mul_le (by positivity)).mp this
          calc 1024 ^ (j' + 1 + 1) = 1024 * 1024 ^ (j' + 1) := pow_succ' 1024 (j' + 1)
            _ ≤ n.toNat := this
    have hj5 : j ≤ 5 := by
      by_contra hcon
      have h6 : 6 ≤ j := by omega
      have : (1024 : ℕ) ^ 7 ≤ 1024 ^ (j + 1) :=
        Nat.pow_le_pow_right (by omega) (by omega)
      have : (1024 : ℕ) ^ 7 ≤ n.toNat := le_trans this hlo
      norm_num at this
      omega
    refine ⟨j, hj5, hlo, hup, ?_, ?_⟩
    · rw [Config.FormatSize, if_neg (by omega), hj]
      simp only [pow_succ', Nat.zero_add]
      rfl
    · interval_cases j <;> decide

/-- C7 witness: the small branch at 500 bytes and the unit branch at
200 GiB. -/
theorem c7_format_size_witness :
    Config.FormatSize 500 = intToDigits 500 ++ " B".toList ∧
    (∃ exp, exp ≤ 5 ∧ 1024 ^ (exp + 1) ≤ (200 * 2 ^ 30 : ℤ).toNat ∧
      (200 * 2 ^ 30 : ℤ).toNat < 1024 ^ (exp + 2) ∧
      Config.FormatSize (200 * 2 ^ 30) = fix1 (200 * 2 ^ 30 : ℤ).toNat (1024 ^ (exp + 1))
          ++ ' ' :: unitChar exp :: "iB".toList ∧
      unitChar exp ∈ ['K', 'M', 'G', 'T', 'P', 'E']) :=
  ⟨(c7_format_size 500).1 (by decide),
   (c7_format_size (200 * 2 ^ 30)).2.1 (by decide) (by decide)⟩

/-! ## C8: round-trip of format and parse -/

lemma roundHalfEven_mul_bounds (t den : ℕ) (hden : 0 < den) :
    2 * t ≤ 2 * (roundHalfEven t den * den) + den ∧
    2 * (roundHalfEven t den * den) ≤ 2 * t + den := by
  have hE : t / den * den + t % den = t := by
    rw [Nat.mul_comm]
    exact Nat.div_add_mod t den
  have hr : t % den < den := Nat.mod_lt t hden
  rw [roundHalfEven]
  split_ifs with h1 h2 h3
  · omega
  · rw [Nat.add_mul, Nat.one_mul]
    omega
  · omega
  · rw [Nat.add_mul, Nat.one_mul]
    omega

lemma c8_numeric (b div : ℕ) (hdiv : 1024 ≤ div) (hb1 : div ≤ b) (hb2 : b < 1024 * div) :
    20 * (roundHalfEven (10 * b) div * div / 10) ≤ 21 * b ∧
    20 * b ≤ 20 * (roundHalfEven (10 * b) div * div / 10) + b := by
  obtain ⟨hlow, hhigh⟩ := roundHalfEven_mul_bounds (10 * b) div (by omega)
  by_cases hcase : div + 18 ≤ b
  · constructor <;> omega
  · have hq10 : 10 * b / div = 10 :=
      Nat.div_eq_of_lt_le (by omega) (by omega)
    have hrmod : 10 * b % div = 10 * b - 10 * div := by
      have hdm := Nat.div_add_mod (10 * b) div
      rw [hq10] at hdm
      omega
    have hk10 : roundHalfEven (10 * b) div = 10 := by
      rw [roundHalfEven]
      rw [if_pos (by omega), hq10]
    rw [hk10]
    have hdd : 10 * div / 10 = div := by omega
    rw [hdd]
    constructor <;> omega

lemma isDecimalLit_of_shape {D F : Chars} (hD : D ≠ [])
    (hDd : ∀ c ∈ D, isDigitChar c = true) (hF : F ≠ [])
    (hFd : ∀ c ∈ F, isDigitChar c = true) :
    Config.isDecimalLit (D ++ '.' :: F) = true := by
  have hdot : ∀ c ∈ ('.' :: F).take 1, isDigitChar c = false := by
    intro c hc
    simp only [List.take_succ_cons, List.take_zero, List.mem_singleton] at hc
    rw [hc]; decide
  obtain ⟨htw, hdw⟩ := Config.takeWhile_append_all hDd hdot
  rw [Config.isDecimalLit]
  simp only [htw, hdw]
  simp [hD, hF, List.all_eq_true]
  exact hFd

lemma decimalVal_of_shape {D F : Chars}
    (hDd : ∀ c ∈ D, isDigitChar c = true) :
    Config.decimalVal (D ++ '.' :: F)
      = Rat.divInt (digitsVal D * 10 ^ F.length + digitsVal F) (10 ^ F.length) := by
  have hdot : ∀ c ∈ ('.' :: F).take 1, isDigitChar c = false := by
    intro c hc
    simp only [List.take_succ_cons, List.take_zero, List.mem_singleton] at hc
    rw [hc]; decide
  obtain ⟨htw, hdw⟩ := Config.takeWhile_append_all hDd hdot
  rw [Config.decimalVal]
  simp [htw, hdw]

lemma trunc_mul_div (k d : ℕ) :
    truncRat (ratMulInt (Rat.divInt (k : ℤ) (10 : ℤ)) ((d : ℕ) : ℤ))
      = ((k * d / 10 : ℕ) : ℤ) := by
  rw [ratMulInt_eq, Rat.divInt_eq_div]
  have hval : ((k : ℤ) : ℚ) / ((10 : ℤ) : ℚ) * (((d : ℕ) : ℤ) : ℚ)
      = ((k * d : ℕ) : ℚ) / ((10 : ℕ) : ℚ) := by
    push_cast
    ring
  rw [hval, truncRat_eq_floor _ (by positivity), Rat.floor_natCast_div_natCast]
  exact (Int.ofNat_div _ _).symm

/-- The core of the C8 round-trip: parsing the formatted fixed-point
mantissa with an IEC unit whose multiplier is `div` yields
`(k·div)/10` where `k` is the rounded tenfold mantissa. -/
lemma c8_core (b div : ℕ) (u : Char) (hdiv : 1024 ≤ div) (hb2 : b < 1024 * div)
    (halpha : isAlphaChar u = true)
    (hmu : Config.unitMult (toUpperChars [u, 'i', 'B']) = some ((div : ℕ) : ℤ)) :
    Config.ParseSize (fix1 b div ++ ' ' :: u :: "iB".toList)
      = .ok ((roundHalfEven (10 * b) div * div / 10 : ℕ) : ℤ) := by
  have hk20 : roundHalfEven (10 * b) div / 10 < 10 ^ 20 := by
    have hb := (roundHalfEven_mul_bounds (10 * b) div (by omega)).2
    have h2K : 2 * (roundHalfEven (10 * b) div * div) ≤ 20481 * div := by omega
    have h2k : 2 * roundHalfEven (10 * b) div * div ≤ 20481 * div := by
      rw [Nat.mul_assoc]; exact h2K
    have hkle : roundHalfEven (10 * b) div ≤ 10240 := by
      have := Nat.le_of_mul_le_mul_right h2k (show 0 < div by omega)
      omega
    calc roundHalfEven (10 * b) div / 10 ≤ roundHalfEven (10 * b) div :=
          Nat.div_le_self _ _
      _ ≤ 10240 := hkle
      _ < 10 ^ 20 := by norm_num
  have hmod10 : roundHalfEven (10 * b) div % 10 < 10 := Nat.mod_lt _ (by omega)
  have hnum : Config.isDecimalLit (natToDigits (roundHalfEven (10 * b) div / 10)
      ++ '.' :: [digitChar (roundHalfEven (10 * b) div % 10)]) = true :=
    isDecimalLit_of_shape (natToDigits_ne_nil _) (natToDigits_all_digits _)
      (by simp) (by
        intro c hc
        rw [List.mem_singleton.mp hc]
        exact isDigitChar_digitChar hmod10)
  have hunit : ∀ c ∈ [u, 'i', 'B'], isAlphaChar c = true := by
    intro c hc
    simp only [List.mem_cons, List.mem_singleton, List.not_mem_nil, or_false] at hc
    rcases hc with rfl | rfl | rfl
    · exact halpha
    · decide
    · decide
  have hps := Config.ParseSize_decomp
    (natToDigits (roundHalfEven (10 * b) div / 10)
      ++ '.' :: [digitChar (roundHalfEven (10 * b) div % 10)])
    [' '] [u, 'i', 'B'] hnum (by decide) hunit (fun h => absurd h (by simp))
  rw [hmu] at hps
  have hrest : truncRat (ratMulInt
      (Config.decimalVal (natToDigits (roundHalfEven (10 * b) div / 10)
        ++ '.' :: [digitChar (roundHalfEven (10 * b) div % 10)]))
      ((div : ℕ) : ℤ)) = ((roundHalfEven (10 * b) div * div / 10 : ℕ) : ℤ) := by
    rw [decimalVal_of_shape (natToDigits_all_digits _)]
    simp only [List.length_cons, List.length_nil, zero_add, pow_one,
      natToDigits_val hk20, digitsVal_singleton, digitChar_toNat hmod10,
      Nat.add_sub_cancel_left]
    have hnum_eq : ((roundHalfEven (10 * b) div / 10 : ℕ) * 10
        + (roundHalfEven (10 * b) div % 10 : ℕ) : ℤ)
        = ((roundHalfEven (10 * b) div : ℕ) : ℤ) := by
      omega
    rw [hnum_eq]
    exact trunc_mul_div (roundHalfEven (10 * b) div) div
  exact hps.trans (congrArg Except.ok hrest)

/-- C8 counterexample: at `n = 2^50` the formatter emits `"1.0 PiB"`,
and `PIB` is not in the parser's unit table, so re-parsing fails: the
round-trip does not hold for every `n ≥ 1024`. -/
theorem c8_counterexample :
    Config.ParseSize (Config.FormatSize (2 ^ 50)) = .error .unknownUnit := by
  decide

/-- C8 (amended): for every byte value `1024 ≤ n < 2^50` (i.e. below
1 PiB — the parser knows the formatter's units only up to TiB),
re-parsing the formatted value succeeds and yields a value within 5% of
`n`. -/
theorem c8_roundtrip (n : ℤ) (h1 : 1024 ≤ n) (h2 : n < 2 ^ 50) :
    ∃ v : ℤ, Config.ParseSize (Config.FormatSize n) = .ok v ∧ 20 * |v - n| ≤ n := by
  obtain ⟨exp, -, hlo, hup, hfmt, -⟩ :=
    (c7_format_size n).2.1 h1 (lt_trans h2 (by norm_num))
  have hexp3 : exp ≤ 3 := by
    by_contra hcon
    have hp : (1024 : ℕ) ^ 5 ≤ 1024 ^ (exp + 1) :=
      Nat.pow_le_pow_right (by omega) (by omega)
    have hple : (1024 : ℕ) ^ 5 ≤ n.toNat := le_trans hp hlo
    have hn : n.toNat < 2 ^ 50 := by omega
    norm_num at hple
    omega
  have hb2 : n.toNat < 1024 * 1024 ^ (exp + 1) := by
    calc n.toNat < 1024 ^ (exp + 2) := hup
      _ = 1024 * 1024 ^ (exp + 1) := pow_succ' 1024 (exp + 1)
  have hdiv : 1024 ≤ 1024 ^ (exp + 1) := by
    calc (1024 : ℕ) = 1024 ^ 1 := (pow_one 1024).symm
      _ ≤ 1024 ^ (exp + 1) := Nat.pow_le_pow_right (by omega) (by omega)
  have hparse : Config.ParseSize (Config.FormatSize n)
      = .ok ((roundHalfEven (10 * n.toNat) (1024 ^ (exp + 1)) * 1024 ^ (exp + 1) / 10
          : ℕ) : ℤ) := by
    rw [hfmt]
    interval_cases exp
    · exact c8_core n.toNat (1024 ^ (0 + 1)) 'K' (by norm_num) hb2 (by decide) (by decide)
    · exact c8_core n.toNat (1024 ^ (1 + 1)) 'M' (by norm_num) hb2 (by decide) (by decide)
    · exact c8_core n.toNat (1024 ^ (2 + 1)) 'G' (by norm_num) hb2 (by decide) (by decide)
    · exact c8_core n.toNat (1024 ^ (3 + 1)) 'T' (by norm_num) hb2 (by decide) (by decide)
  obtain ⟨hB1, hB2⟩ := c8_numeric n.toNat (1024 ^ (exp + 1)) hdiv hlo hb2
  refine ⟨_, hparse, ?_⟩
  have hnb : ((n.toNat : ℤ)) = n := Int.toNat_of_nonneg (by omega)
  rcases abs_cases (((roundHalfEven (10 * n.toNat) (1024 ^ (exp + 1)) * 1024 ^ (exp + 1) / 10
      : ℕ) : ℤ) - n) with ⟨he, -⟩ | ⟨he, -⟩ <;> rw [he] <;> omega

/-- C8 witness: a concrete value in the amended range. -/
theorem c8_roundtrip_witness :
    ∃ v : ℤ, Config.ParseSize (Config.FormatSize 123456789) = .ok v ∧
      20 * |v - 123456789| ≤ 123456789 :=
  c8_roundtrip 123456789 (by decide) (by decide)

end SGP
